import Mathlib

/-!
Shallow embedding of the NeuralSim discrete-time simulation core
(linear-regression gradient descent, decision-tree building, heuristic
digit recognition, BNN membrane-potential dynamics, brain-region
activity updates, ANN forward pass, and the tick scheduler), together
with theorems settling the specification claims.  Machine numbers are
modelled as exact rationals (reals where the source uses `Math.exp` /
`Math.tanh`); `Math.random()` draws are threaded as explicit parameters
assumed to lie in [0, 1).
-/

namespace NeuralSim

/-! ## Linear regression (src/app/ml-algorithms/page.tsx, runAlgorithmStep "linear") -/

structure LinearRegressionState where
  slope : ℚ
  intercept : ℚ
  cost : ℚ
  iteration : ℕ
  previousCost : ℚ

/-- One iteration of the "linear" branch of `runAlgorithmStep`: a single
`forEach` pass accumulates the slope gradient, intercept gradient and total
cost, which are then scaled by `2/n` (cost by `1/n`) and applied with the
learning rate.  The global `iterations` counter is the one copied into the
new state's `iteration` field, exactly as in the source. -/
def linearStep (learningRate : ℚ) (points : List (ℚ × ℚ)) (iterations : ℕ)
    (s : LinearRegressionState) : LinearRegressionState :=
  let acc := points.foldl
    (fun (t : ℚ × ℚ × ℚ) p =>
      let predicted := s.slope * p.1 + s.intercept
      let error := predicted - p.2
      (t.1 + error * p.1, t.2.1 + error, t.2.2 + error * error))
    (0, 0, 0)
  let n : ℚ := points.length
  let slopeGradient := (2 / n) * acc.1
  let interceptGradient := (2 / n) * acc.2.1
  let totalCost := acc.2.2 / n
  { slope := s.slope - learningRate * slopeGradient
    intercept := s.intercept - learningRate * interceptGradient
    cost := totalCost
    iteration := iterations + 1
    previousCost := s.cost }

lemma linearStep_foldl_eq (s : LinearRegressionState) (points : List (ℚ × ℚ)) :
    ∀ a b c : ℚ,
      points.foldl
        (fun (t : ℚ × ℚ × ℚ) p =>
          let predicted := s.slope * p.1 + s.intercept
          let error := predicted - p.2
          (t.1 + error * p.1, t.2.1 + error, t.2.2 + error * error))
        (a, b, c)
      = (a + (points.map fun p => (s.slope * p.1 + s.intercept - p.2) * p.1).sum,
         b + (points.map fun p => s.slope * p.1 + s.intercept - p.2).sum,
         c + (points.map fun p => (s.slope * p.1 + s.intercept - p.2) ^ 2).sum) := by
  induction points with
  | nil => intro a b c; simp
  | cons p ps ih =>
    intro a b c
    simp only [List.foldl_cons, List.map_cons, List.sum_cons]
    rw [ih]
    simp only [Prod.mk.injEq]
    refine ⟨by ring, by ring, by ring⟩

/-- C1: for every non-empty sample set, one linear-regression iteration is
textbook batch gradient descent on mean squared error: with
`error_i = slope*x_i + intercept - y_i`, the new slope is
`slope - learningRate * (2/n) * Σ error_i * x_i`, the new intercept is
`intercept - learningRate * (2/n) * Σ error_i`, and the recorded cost is
`(1/n) * Σ error_i ^ 2`. -/
theorem linearStep_is_gradient_descent (lr : ℚ) (points : List (ℚ × ℚ))
    (iters : ℕ) (s : LinearRegressionState) (h : points ≠ []) :
    (linearStep lr points iters s).slope
        = s.slope - lr * ((2 / (points.length : ℚ)) *
            (points.map fun p => (s.slope * p.1 + s.intercept - p.2) * p.1).sum)
      ∧ (linearStep lr points iters s).intercept
        = s.intercept - lr * ((2 / (points.length : ℚ)) *
            (points.map fun p => s.slope * p.1 + s.intercept - p.2).sum)
      ∧ (linearStep lr points iters s).cost
        = (1 / (points.length : ℚ)) *
            (points.map fun p => (s.slope * p.1 + s.intercept - p.2) ^ 2).sum := by
  unfold linearStep
  rw [linearStep_foldl_eq]
  refine ⟨by simp, by simp, ?_⟩
  simp only [zero_add]
  rw [div_eq_mul_inv, one_div, mul_comm]

/-- A concrete two-point sample set used by the C1 witness. -/
def c1Points : List (ℚ × ℚ) := [(1, 2), (2, 3)]

/-- A concrete regression state used by the C1 witness. -/
def c1State : LinearRegressionState := ⟨1, 0, 0, 0, 0⟩

/-- Witness for C1 at a concrete two-point sample set. -/
theorem linearStep_is_gradient_descent_witness :
    c1Points ≠ []
    ∧ ((linearStep (1/100) c1Points 0 c1State).slope
        = c1State.slope - (1/100) * ((2 / (c1Points.length : ℚ)) *
            (c1Points.map fun p =>
              (c1State.slope * p.1 + c1State.intercept - p.2) * p.1).sum)
      ∧ (linearStep (1/100) c1Points 0 c1State).intercept
        = c1State.intercept - (1/100) * ((2 / (c1Points.length : ℚ)) *
            (c1Points.map fun p =>
              c1State.slope * p.1 + c1State.intercept - p.2).sum)
      ∧ (linearStep (1/100) c1Points 0 c1State).cost
        = (1 / (c1Points.length : ℚ)) *
            (c1Points.map fun p =>
              (c1State.slope * p.1 + c1State.intercept - p.2) ^ 2).sum) :=
  ⟨by simp [c1Points],
   linearStep_is_gradient_descent (1/100) c1Points 0 c1State (by simp [c1Points])⟩

/-! ## Tick scheduler (src/app/ml-algorithms/page.tsx): ceiling guard and stop effect -/

structure MLSchedulerState (σ : Type) where
  isRunning : Bool
  iterations : ℕ
  maxIterations : ℕ
  sim : σ

/-- The guard at the top of `runAlgorithmStep`
(`if (!isRunning || iterations >= maxIterations) return`) followed, when it
passes, by the algorithm update and `setIterations(prev => prev + 1)`. -/
def runStep {σ : Type} (f : σ → σ) (s : MLSchedulerState σ) : MLSchedulerState σ :=
  if s.isRunning = false ∨ s.maxIterations ≤ s.iterations then s
  else { s with sim := f s.sim, iterations := s.iterations + 1 }

/-- The effect `if (iterations >= maxIterations) setIsRunning(false)` that
runs after each state change. -/
def stopEffect {σ : Type} (s : MLSchedulerState σ) : MLSchedulerState σ :=
  if s.maxIterations ≤ s.iterations then { s with isRunning := false } else s

/-- One scheduled tick: the interval handler runs `runAlgorithmStep`; the stop
effect has dependency array `[iterations, maxIterations]`, so it re-runs only
when the tick changed the iteration counter (a tick never changes the
ceiling).  A guarded early-return tick therefore does NOT re-run the effect. -/
def schedTick {σ : Type} (f : σ → σ) (s : MLSchedulerState σ) : MLSchedulerState σ :=
  let s' := runStep f s
  if s'.iterations = s.iterations then s' else stopEffect s'

lemma schedTick_noop {σ : Type} (f : σ → σ) (s : MLSchedulerState σ)
    (h : s.isRunning = false ∨ s.maxIterations ≤ s.iterations) :
    schedTick f s = s := by
  unfold schedTick runStep
  rw [if_pos h]
  simp

lemma schedTick_iterate_noop {σ : Type} (f : σ → σ) (s : MLSchedulerState σ)
    (h : s.isRunning = false ∨ s.maxIterations ≤ s.iterations) :
    ∀ m, (schedTick f)^[m] s = s := by
  intro m
  induction m with
  | zero => rfl
  | succ k ih => rw [Function.iterate_succ_apply, schedTick_noop f s h, ih]

lemma schedTick_productive {σ : Type} (f : σ → σ) (s : MLSchedulerState σ)
    (h1 : s.isRunning = true) (h2 : s.iterations < s.maxIterations) :
    schedTick f s = stopEffect { s with sim := f s.sim, iterations := s.iterations + 1 } := by
  have hguard : ¬ (s.isRunning = false ∨ s.maxIterations ≤ s.iterations) := by
    push_neg
    exact ⟨by simp [h1], by omega⟩
  unfold schedTick runStep
  rw [if_neg hguard]
  simp

/-- C6: the tick on which the iteration counter reaches `maxIterations` flips
the running flag to false (the stop effect re-runs because the counter
changed), so the flag is already false at the very next scheduled tick; every
further tick at the ceiling is a no-op that leaves the state unchanged (the
guard returns early and the effect does not re-fire), so the stopped condition
cannot be reversed by ticking: even re-enabling the running flag without
raising the ceiling leaves every subsequent tick a no-op — only an explicit
restart with a raised ceiling, or a reset, resumes progress. -/
theorem schedTick_ceiling_stops {σ : Type} (f : σ → σ) (s : MLSchedulerState σ)
    (k : ℕ) (h1 : s.isRunning = true) (h2 : s.iterations + 1 = s.maxIterations) :
    schedTick f s
        = { isRunning := false, iterations := s.iterations + 1,
            maxIterations := s.maxIterations, sim := f s.sim }
      ∧ (schedTick f)^[k + 1] (schedTick f s) = schedTick f s
      ∧ schedTick f { schedTick f s with isRunning := true }
          = { schedTick f s with isRunning := true } := by
  have hrun : schedTick f s
      = { isRunning := false, iterations := s.iterations + 1,
          maxIterations := s.maxIterations, sim := f s.sim } := by
    rw [schedTick_productive f s h1 (by omega)]
    unfold stopEffect
    rw [if_pos (show ({ s with sim := f s.sim, iterations := s.iterations + 1 }
        : MLSchedulerState σ).maxIterations
      ≤ ({ s with sim := f s.sim, iterations := s.iterations + 1 }
        : MLSchedulerState σ).iterations from le_of_eq h2.symm)]
  refine ⟨hrun, ?_, ?_⟩
  · rw [hrun]
    exact schedTick_iterate_noop f
      { isRunning := false, iterations := s.iterations + 1,
        maxIterations := s.maxIterations, sim := f s.sim }
      (Or.inr (le_of_eq h2.symm)) (k + 1)
  · rw [hrun]
    exact schedTick_noop f
      { isRunning := true, iterations := s.iterations + 1,
        maxIterations := s.maxIterations, sim := f s.sim }
      (Or.inr (le_of_eq h2.symm))

/-- A scheduler one productive tick below its ceiling, for the C6 witness. -/
def c6State : MLSchedulerState ℕ := ⟨true, 4, 5, 0⟩

/-- Witness for C6: the tick from iteration 4 of 5 stops the run, further
ticks are no-ops, and re-enabling the flag at the ceiling stays a no-op. -/
theorem schedTick_ceiling_stops_witness :
    c6State.isRunning = true
    ∧ c6State.iterations + 1 = c6State.maxIterations
    ∧ (schedTick Nat.succ c6State
        = { isRunning := false, iterations := c6State.iterations + 1,
            maxIterations := c6State.maxIterations, sim := Nat.succ c6State.sim }
      ∧ (schedTick Nat.succ)^[3 + 1] (schedTick Nat.succ c6State)
          = schedTick Nat.succ c6State
      ∧ schedTick Nat.succ { schedTick Nat.succ c6State with isRunning := true }
          = { schedTick Nat.succ c6State with isRunning := true }) :=
  ⟨rfl, rfl, schedTick_ceiling_stops Nat.succ c6State 3 rfl rfl⟩

/-! ## BNN membrane-potential dynamics (src/unnamed/part_001, simulation loop) -/

/-- One per-tick update of a single neuron from the `setNeurons` body: decay
towards the resting potential by a factor `0.1` of the gap, additive background
noise `(r1 - 0.5) * 2` from a uniform draw `r1 ∈ [0,1)`, an external
stimulation kick `+20` when a second draw `r2` falls below
`stimulationIntensity / 1000`, and the action-potential check
`newPotential > threshold && currentTime - lastSpikeTime > 50`, which on
success clamps the potential to the peak `40`, marks the neuron fired, and
records the spike time.  Returns (new potential, fired flag, new last-spike
time). -/
def bnnNeuronStep (restingPotential threshold stimulationIntensity
    currentTime lastSpikeTime potential r1 r2 : ℚ) : ℚ × Bool × ℚ :=
  let p1 := potential + (restingPotential - potential) * (1/10)
  let p2 := p1 + (r1 - 1/2) * 2
  let p3 := if r2 < stimulationIntensity / 1000 then p2 + 20 else p2
  if threshold < p3 ∧ 50 < currentTime - lastSpikeTime then (40, true, currentTime)
  else (p3, false, lastSpikeTime)

/-- Trajectory of one neuron initialized exactly as in `initializeNetwork`
(`currentPotential = restingPotential = -70`, `threshold = -55`,
`lastSpikeTime = 0`) under stimulation intensity 0, driven by the per-tick
uniform draws `r1` (noise) and `r2` (kick).  The interval handler advances
`currentTime` by `simulationSpeed` per tick but the neuron update reads the
closure's pre-tick value, so tick `n` observes time `speed * n`. -/
def bnnTrajZero (speed : ℚ) (r1 r2 : ℕ → ℚ) : ℕ → ℚ × Bool × ℚ
  | 0 => (-70, false, 0)
  | n + 1 =>
    let prev := bnnTrajZero speed r1 r2 n
    bnnNeuronStep (-70) (-55) 0 (speed * n) prev.2.2 prev.1 (r1 n) (r2 n)

lemma bnnNeuronStep_noStim (ct ls p a b : ℚ) (hp : p ≤ -60)
    (ha : a ≤ 1) (hb : 0 ≤ b) :
    bnnNeuronStep (-70) (-55) 0 ct ls p a b
        = (p + (-70 - p) * (1/10) + (a - 1/2) * 2, false, ls)
      ∧ p + (-70 - p) * (1/10) + (a - 1/2) * 2 ≤ -60 := by
  have hkick : ¬ b < (0 : ℚ) / 1000 := by
    rw [zero_div]; exact not_lt.mpr hb
  have hbound : p + (-70 - p) * (1/10) + (a - 1/2) * 2 ≤ -60 := by linarith
  have hfire : ¬ ((-55 : ℚ) < p + (-70 - p) * (1/10) + (a - 1/2) * 2
      ∧ 50 < ct - ls) := by
    rintro ⟨hc, -⟩; linarith
  refine ⟨?_, hbound⟩
  simp only [bnnNeuronStep]
  rw [if_neg hkick, if_neg hfire]

lemma bnnTrajZero_invariant (speed : ℚ) (r1 r2 : ℕ → ℚ)
    (h1 : ∀ i, 0 ≤ r1 i ∧ r1 i ≤ 1) (h2 : ∀ i, 0 ≤ r2 i) :
    ∀ n, (bnnTrajZero speed r1 r2 n).1 ≤ -60
      ∧ (bnnTrajZero speed r1 r2 n).2.1 = false := by
  intro n
  induction n with
  | zero => exact ⟨by norm_num [bnnTrajZero], rfl⟩
  | succ m ih =>
    have step := bnnNeuronStep_noStim (speed * m) (bnnTrajZero speed r1 r2 m).2.2
      (bnnTrajZero speed r1 r2 m).1 (r1 m) (r2 m) ih.1 (h1 m).2 (h2 m)
    show (bnnNeuronStep (-70) (-55) 0 (speed * m) (bnnTrajZero speed r1 r2 m).2.2
        (bnnTrajZero speed r1 r2 m).1 (r1 m) (r2 m)).1 ≤ -60
      ∧ (bnnNeuronStep (-70) (-55) 0 (speed * m) (bnnTrajZero speed r1 r2 m).2.2
        (bnnTrajZero speed r1 r2 m).1 (r1 m) (r2 m)).2.1 = false
    rw [step.1]
    exact ⟨step.2, rfl⟩

/-- C4: a BNN neuron starting at rest (`currentPotential = -70`, threshold
`-55`) under stimulation intensity 0 never fires across 1000 ticks, for every
realization of the bounded background noise and kick draws: its potential never
exceeds the threshold and no action potential is created for it. -/
theorem bnnRest_never_fires (speed : ℚ) (r1 r2 : ℕ → ℚ)
    (h1 : ∀ i, 0 ≤ r1 i ∧ r1 i ≤ 1) (h2 : ∀ i, 0 ≤ r2 i)
    (n : ℕ) (hn : n ≤ 1000) :
    (bnnTrajZero speed r1 r2 n).1 ≤ -55
      ∧ (bnnTrajZero speed r1 r2 n).2.1 = false := by
  obtain ⟨hp, hf⟩ := bnnTrajZero_invariant speed r1 r2 h1 h2 n
  exact ⟨le_trans hp (by norm_num), hf⟩

/-- Witness for C4: the midpoint noise realization, checked at tick 1000. -/
theorem bnnRest_never_fires_witness :
    (∀ i : ℕ, 0 ≤ (fun _ : ℕ => (1 : ℚ)/2) i ∧ (fun _ : ℕ => (1 : ℚ)/2) i ≤ 1)
    ∧ (∀ i : ℕ, 0 ≤ (fun _ : ℕ => (1 : ℚ)/2) i)
    ∧ (1000 : ℕ) ≤ 1000
    ∧ ((bnnTrajZero 1 (fun _ => 1/2) (fun _ => 1/2) 1000).1 ≤ -55
      ∧ (bnnTrajZero 1 (fun _ => 1/2) (fun _ => 1/2) 1000).2.1 = false) :=
  ⟨fun _ => by norm_num, fun _ => by norm_num, by norm_num,
   bnnRest_never_fires 1 (fun _ => 1/2) (fun _ => 1/2)
     (fun _ => by norm_num) (fun _ => by norm_num) 1000 (by norm_num)⟩

/-! ## Brain-region activity updates (src/app/brain-functions/page.tsx, processStimuli) -/

/-- One additive activity boost from `processStimuli`:
`activity: Math.min(1, r.activity + inc)` where `inc` is the stimulus
intensity/amplitude times a fixed pathway coefficient. -/
def regionBoost (activity inc : ℚ) : ℚ := min 1 (activity + inc)

/-- The end-of-tick decay towards baseline:
`activity: Math.max(r.baseline ?? 0, r.activity - 0.06)`. -/
def regionDecay (baseline : Option ℚ) (activity : ℚ) : ℚ :=
  max (baseline.getD 0) (activity - 6/100)

/-- One full `processStimuli` pass for a region: the boosts applied to it this
tick (in order), then the decay step. -/
def regionTick (baseline : Option ℚ) (incs : List ℚ) (activity : ℚ) : ℚ :=
  regionDecay baseline (incs.foldl regionBoost activity)

lemma fire_clamp_aux (c : Prop) [Decidable c] (x ct ls : ℚ)
    (h : ((if c then ((40 : ℚ), true, ct) else (x, false, ls))).2.1 = true) :
    (if c then ((40 : ℚ), true, ct) else (x, false, ls)).1 = 40 := by
  split at h <;> simp_all

lemma regionBoost_foldl_mem (incs : List ℚ) :
    ∀ a : ℚ, 0 ≤ a → a ≤ 1 → (∀ i ∈ incs, 0 ≤ i) →
      0 ≤ incs.foldl regionBoost a ∧ incs.foldl regionBoost a ≤ 1 := by
  induction incs with
  | nil => intro a h0 h1 _; exact ⟨h0, h1⟩
  | cons i is ih =>
    intro a h0 h1 hmem
    have hi : 0 ≤ i := hmem i (List.mem_cons_self i is)
    have hb0 : 0 ≤ regionBoost a i := le_min (by norm_num) (by linarith)
    have hb1 : regionBoost a i ≤ 1 := min_le_left _ _
    simpa [List.foldl_cons] using
      ih (regionBoost a i) hb0 hb1 (fun j hj => hmem j (List.mem_cons_of_mem i hj))

/-- C3 (counterexample): the simulation loop never clamps the membrane
potential to `[resting, peak]`.  From the initial state (potential `-70`) a
single tick whose noise draw is `r1 = 0` drives the potential to `-71`,
strictly below the declared resting floor `-70`. -/
theorem bnn_potential_below_resting :
    (bnnTrajZero 1 (fun _ => 0) (fun _ => 1/2) 1).1 < -70 := by
  norm_num [bnnTrajZero, bnnNeuronStep]

/-- C3 (amended): every brain region's activity remains within `[0,1]` after
each `processStimuli` tick (boosts are nonnegative and the baseline lies in
`[0,1]`), and a BNN neuron's membrane potential is set to the peak `40` at the
moment it fires; outside firing the potential is not clamped to
`[resting, peak]`. -/
theorem region_activity_in_unit_and_fire_peak (b : Option ℚ) (incs : List ℚ)
    (a : ℚ) (resting thr inten ct ls p r1 r2 : ℚ)
    (ha0 : 0 ≤ a) (ha1 : a ≤ 1) (hincs : ∀ i ∈ incs, 0 ≤ i)
    (hb0 : 0 ≤ b.getD 0) (hb1 : b.getD 0 ≤ 1)
    (hfire : (bnnNeuronStep resting thr inten ct ls p r1 r2).2.1 = true) :
    (0 ≤ regionTick b incs a ∧ regionTick b incs a ≤ 1)
      ∧ (bnnNeuronStep resting thr inten ct ls p r1 r2).1 = 40 := by
  constructor
  · obtain ⟨h0, h1⟩ := regionBoost_foldl_mem incs a ha0 ha1 hincs
    unfold regionTick regionDecay
    constructor
    · exact le_max_of_le_left hb0
    · exact max_le hb1 (by linarith)
  · simp only [bnnNeuronStep] at hfire ⊢
    exact fire_clamp_aux _ _ _ _ hfire

/-- Witness for the amended C3: a concrete boosted region and a concrete
firing neuron (potential 0, kick applied, refractory elapsed). -/
theorem region_activity_in_unit_and_fire_peak_witness :
    (0 : ℚ) ≤ 0 ∧ (0 : ℚ) ≤ 1 ∧ (∀ i ∈ [(7 : ℚ)/20], 0 ≤ i)
    ∧ (0 : ℚ) ≤ (some ((1 : ℚ)/50)).getD 0 ∧ (some ((1 : ℚ)/50)).getD 0 ≤ 1
    ∧ (bnnNeuronStep (-70) (-55) 50 100 0 0 (1/2) 0).2.1 = true
    ∧ ((0 ≤ regionTick (some (1/50)) [(7 : ℚ)/20] 0
        ∧ regionTick (some (1/50)) [(7 : ℚ)/20] 0 ≤ 1)
      ∧ (bnnNeuronStep (-70) (-55) 50 100 0 0 (1/2) 0).1 = 40) :=
  ⟨le_refl 0, by norm_num, by norm_num, by norm_num, by norm_num,
   by norm_num [bnnNeuronStep],
   region_activity_in_unit_and_fire_peak (some (1/50)) [(7 : ℚ)/20] 0
     (-70) (-55) 50 100 0 0 (1/2) 0 (le_refl 0) (by norm_num) (by norm_num)
     (by norm_num) (by norm_num) (by norm_num [bnnNeuronStep])⟩

/-! ## Decision tree (src/app/ml-algorithms/page.tsx, buildDecisionTree) -/

structure DataPoint where
  x : ℚ
  y : ℚ
  label : Option ℕ

/-- `d[feature as keyof DataPoint] as number` for `feature ∈ {"x","y"}`. -/
def DataPoint.feat (d : DataPoint) (f : String) : ℚ := if f = "x" then d.x else d.y

inductive DecisionNode : Type where
  | mk (id : String) (feature : String) (threshold : ℚ)
      (left : Option DecisionNode) (right : Option DecisionNode)
      (prediction : Option ℕ) (samples : ℕ) (depth : ℕ) : DecisionNode

def DecisionNode.feature : DecisionNode → String
  | .mk _ f _ _ _ _ _ _ => f

def DecisionNode.prediction : DecisionNode → Option ℕ
  | .mk _ _ _ _ _ p _ _ => p

def DecisionNode.samples : DecisionNode → ℕ
  | .mk _ _ _ _ _ _ s _ => s

def DecisionNode.left : DecisionNode → Option DecisionNode
  | .mk _ _ _ l _ _ _ _ => l

def DecisionNode.right : DecisionNode → Option DecisionNode
  | .mk _ _ _ _ r _ _ _ => r

/-- JavaScript `labelCounts[parseInt(a)] > labelCounts[parseInt(b)]`: a lookup
of a key absent from the record yields `undefined`, and any `>` comparison
against `undefined` is false. -/
def jsGT : Option ℕ → Option ℕ → Bool
  | some a, some b => decide (b < a)
  | _, none => false
  | none, _ => false

/-- The `labelCounts` record built by `labels.reduce`: a key is present exactly
when the label occurs, with its occurrence count. -/
def countsLookup (labels : List ℕ) (k : ℕ) : Option ℕ :=
  if k ∈ labels then some (labels.count k) else none

/-- `Object.keys(labelCounts)` for a record keyed by numeric labels: the
distinct labels in ascending numeric order. -/
def labelKeys (labels : List ℕ) : List ℕ :=
  labels.dedup.insertionSort (· ≤ ·)

lemma labelKeys_sorted (labels : List ℕ) : (labelKeys labels).Sorted (· < ·) := by
  have hs : (labelKeys labels).Sorted (· ≤ ·) := List.sorted_insertionSort _ _
  have hn : (labelKeys labels).Nodup :=
    (List.perm_insertionSort (· ≤ ·) labels.dedup).nodup_iff.mpr (List.nodup_dedup labels)
  exact hs.lt_of_le hn

lemma mem_labelKeys {labels : List ℕ} {k : ℕ} : k ∈ labelKeys labels ↔ k ∈ labels := by
  unfold labelKeys
  rw [List.mem_insertionSort, List.mem_dedup]

/-- The leaf prediction
`parseInt(Object.keys(labelCounts).reduce((a, b) => labelCounts[parseInt(a)] > labelCounts[parseInt(b)] ? a : b, "0"))`. -/
def majorityLabel (labels : List ℕ) : ℕ :=
  (labelKeys labels).foldl
    (fun a b => if jsGT (countsLookup labels a) (countsLookup labels b) then a else b) 0

/-- The leaf construction shared by the two early-return blocks of
`buildDecisionTree`: labels default missing/zero via `d.label || 0`, and the
prediction is the `labelCounts`-reduce above. -/
def leafNode (data : List DataPoint) (depth : ℕ) : DecisionNode :=
  let labels := data.map fun d => d.label.getD 0
  DecisionNode.mk ("leaf-" ++ toString depth ++ "-" ++ toString data.length)
    "leaf" 0 none none (some (majorityLabel labels)) data.length depth

structure SplitChoice where
  feature : String
  threshold : ℚ
  gain : ℚ

/-- The candidate enumeration of the split search: features `"x"` then `"y"`,
integer thresholds 1 through 9. -/
def splitCandidates : List (String × ℚ) :=
  (["x", "y"]).flatMap fun f => (List.range' 1 9).map fun i => (f, (i : ℚ))

/-- The best-split search: a candidate is valid when both partitions are
non-empty; its gain is `|left - right| / n`; a candidate replaces the current
best only when its gain is strictly greater; the initial best is
`{feature "x", threshold 5, gain 0}`. -/
def findBestSplit (data : List DataPoint) : SplitChoice :=
  splitCandidates.foldl
    (fun best fi =>
      let leftData := data.filter fun d => d.feat fi.1 < fi.2
      let rightData := data.filter fun d => fi.2 ≤ d.feat fi.1
      if 0 < leftData.length ∧ 0 < rightData.length then
        let gain := |(leftData.length : ℚ) - (rightData.length : ℚ)| / (data.length : ℚ)
        if best.gain < gain then ⟨fi.1, fi.2, gain⟩ else best
      else best)
    ⟨"x", 5, 0⟩

/-- `buildDecisionTree`: leaf when the depth ceiling is reached or fewer than 5
samples remain; otherwise search for the best split, fall back to a leaf when
the chosen split leaves a partition empty, else recurse on both partitions at
`depth + 1`. -/
def buildDecisionTree (data : List DataPoint) (depth maxDepth : ℕ) : DecisionNode :=
  if hstop : maxDepth ≤ depth ∨ data.length < 5 then leafNode data depth
  else
    let best := findBestSplit data
    let leftData := data.filter fun d => d.feat best.feature < best.threshold
    let rightData := data.filter fun d => best.threshold ≤ d.feat best.feature
    if leftData.length = 0 ∨ rightData.length = 0 then leafNode data depth
    else
      DecisionNode.mk
        ("node-" ++ toString depth ++ "-" ++ best.feature ++ "-" ++ toString best.threshold)
        best.feature best.threshold
        (some (buildDecisionTree leftData (depth + 1) maxDepth))
        (some (buildDecisionTree rightData (depth + 1) maxDepth))
        none data.length depth
termination_by maxDepth - depth
decreasing_by
  all_goals
    push_neg at hstop
    omega

lemma jsGT_eq_count_lt (labels : List ℕ) (a b : ℕ) (hb : b ∈ labels) :
    jsGT (countsLookup labels a) (countsLookup labels b)
      = decide (labels.count b < labels.count a) := by
  unfold jsGT countsLookup
  by_cases ha : a ∈ labels
  · simp [ha, hb]
  · have hz : labels.count a = 0 := List.count_eq_zero.mpr ha
    have : ¬ labels.count b < labels.count a := by omega
    simp [ha, hb, this]

lemma majorityLabel_eq_pick (labels : List ℕ) :
    majorityLabel labels
      = (labelKeys labels).foldl
          (fun a b => if labels.count b < labels.count a then a else b) 0 := by
  unfold majorityLabel
  apply List.foldl_ext
  intro a b hb
  have hbmem : b ∈ labels := mem_labelKeys.mp hb
  rw [jsGT_eq_count_lt labels a b hbmem]
  by_cases hlt : labels.count b < labels.count a <;> simp [hlt]

/-- The argmax scan over ascending distinct keys: keeping the accumulator only
on a strict count win means ties go to the later (larger) key. -/
lemma pick_foldl_spec (cnt : ℕ → ℕ) :
    ∀ (ks : List ℕ) (acc : ℕ), ks.Sorted (· < ·) →
      (ks.foldl (fun a b => if cnt b < cnt a then a else b) acc = acc
          ∧ ∀ k ∈ ks, cnt k < cnt acc)
      ∨ (ks.foldl (fun a b => if cnt b < cnt a then a else b) acc ∈ ks
          ∧ cnt acc ≤ cnt (ks.foldl (fun a b => if cnt b < cnt a then a else b) acc)
          ∧ ∀ k ∈ ks,
              cnt k ≤ cnt (ks.foldl (fun a b => if cnt b < cnt a then a else b) acc)
              ∧ (cnt k = cnt (ks.foldl (fun a b => if cnt b < cnt a then a else b) acc)
                  → k ≤ ks.foldl (fun a b => if cnt b < cnt a then a else b) acc)) := by
  intro ks
  induction ks with
  | nil => intro acc _; left; exact ⟨rfl, by simp⟩
  | cons b ks ih =>
    intro acc hsort
    rw [List.sorted_cons] at hsort
    obtain ⟨hb, hsort'⟩ := hsort
    simp only [List.foldl_cons]
    by_cases hc : cnt b < cnt acc
    · rw [if_pos hc]
      rcases ih acc hsort' with ⟨heq, hall⟩ | ⟨hmem, hle, hall⟩
      · left
        refine ⟨heq, ?_⟩
        intro k hk
        rcases List.mem_cons.mp hk with rfl | hk'
        · exact heq ▸ hc
        · exact hall k hk'
      · right
        refine ⟨List.mem_cons_of_mem b hmem, hle, ?_⟩
        intro k hk
        rcases List.mem_cons.mp hk with rfl | hk'
        · exact ⟨le_of_lt (lt_of_lt_of_le hc hle), fun he => absurd he (by omega)⟩
        · exact hall k hk'
    · rw [if_neg hc]
      have hc' : cnt acc ≤ cnt b := le_of_not_lt hc
      rcases ih b hsort' with ⟨heq, hall⟩ | ⟨hmem, hle, hall⟩
      · right
        rw [heq]
        refine ⟨List.mem_cons_self b ks, hc', ?_⟩
        intro k hk
        rcases List.mem_cons.mp hk with rfl | hk'
        · exact ⟨le_refl _, fun _ => le_refl _⟩
        · exact ⟨le_of_lt (hall k hk'), fun he => absurd he (by have := hall k hk'; omega)⟩
      · right
        refine ⟨List.mem_cons_of_mem b hmem, le_trans hc' hle, ?_⟩
        intro k hk
        rcases List.mem_cons.mp hk with rfl | hk'
        · exact ⟨hle, fun _ => le_of_lt (hb _ hmem)⟩
        · exact hall k hk'

/-- The code's leaf prediction picks a label of maximal count, breaking ties in
favour of the largest tied label. -/
lemma majorityLabel_spec (labels : List ℕ) (h : labels ≠ []) :
    majorityLabel labels ∈ labels
      ∧ (∀ l ∈ labels, labels.count l ≤ labels.count (majorityLabel labels))
      ∧ (∀ l ∈ labels,
          labels.count l = labels.count (majorityLabel labels)
            → l ≤ majorityLabel labels) := by
  rw [majorityLabel_eq_pick]
  have hsorted : (labelKeys labels).Sorted (· < ·) := labelKeys_sorted labels
  have hkeys : ∀ k ∈ labelKeys labels, k ∈ labels := fun k hk => mem_labelKeys.mp hk
  have hmemkeys : ∀ l ∈ labels, l ∈ labelKeys labels := fun l hl => mem_labelKeys.mpr hl
  rcases pick_foldl_spec labels.count (labelKeys labels) 0 hsorted with
    ⟨heq, hall⟩ | ⟨hmem, _, hall⟩
  · exfalso
    obtain ⟨l0, hl0⟩ := List.exists_mem_of_ne_nil labels h
    have hl0k := hmemkeys l0 hl0
    have hcl0 := hall l0 hl0k
    by_cases h0 : (0 : ℕ) ∈ labels
    · have := hall 0 (hmemkeys 0 h0)
      omega
    · have hz : labels.count 0 = 0 := List.count_eq_zero.mpr h0
      omega
  · refine ⟨hkeys _ hmem, ?_, ?_⟩
    · intro l hl; exact (hall l (hmemkeys l hl)).1
    · intro l hl; exact (hall l (hmemkeys l hl)).2

lemma leafNode_prediction (data : List DataPoint) (depth : ℕ) :
    (leafNode data depth).prediction
      = some (majorityLabel (data.map fun d => d.label.getD 0)) := rfl

/-- The full leaf condition of `buildDecisionTree`: depth ceiling reached,
fewer than 5 samples, or the chosen split leaves a partition empty. -/
def stopCondition (data : List DataPoint) (depth maxDepth : ℕ) : Prop :=
  maxDepth ≤ depth ∨ data.length < 5
    ∨ (data.filter fun d =>
        d.feat (findBestSplit data).feature < (findBestSplit data).threshold).length = 0
    ∨ (data.filter fun d =>
        (findBestSplit data).threshold ≤ d.feat (findBestSplit data).feature).length = 0

lemma buildDecisionTree_eq_leaf (data : List DataPoint) (depth maxDepth : ℕ)
    (h : stopCondition data depth maxDepth) :
    buildDecisionTree data depth maxDepth = leafNode data depth := by
  rw [buildDecisionTree.eq_def]
  split
  · rfl
  · rename_i hno
    push_neg at hno
    have hempty : (data.filter fun d =>
          d.feat (findBestSplit data).feature < (findBestSplit data).threshold).length = 0
        ∨ (data.filter fun d =>
          (findBestSplit data).threshold ≤ d.feat (findBestSplit data).feature).length = 0 := by
      rcases h with h | h | h | h
      · omega
      · omega
      · exact Or.inl h
      · exact Or.inr h
    simp only []
    rw [if_pos hempty]

lemma findBestSplit_feature_mem (data : List DataPoint) :
    (findBestSplit data).feature = "x" ∨ (findBestSplit data).feature = "y" := by
  unfold findBestSplit
  have key : ∀ (l : List (String × ℚ)) (b : SplitChoice),
      (∀ fi ∈ l, fi.1 = "x" ∨ fi.1 = "y") → (b.feature = "x" ∨ b.feature = "y") →
        ((l.foldl (fun best fi =>
          let leftData := data.filter fun d => d.feat fi.1 < fi.2
          let rightData := data.filter fun d => fi.2 ≤ d.feat fi.1
          if 0 < leftData.length ∧ 0 < rightData.length then
            let gain := |(leftData.length : ℚ) - (rightData.length : ℚ)| / (data.length : ℚ)
            if best.gain < gain then ⟨fi.1, fi.2, gain⟩ else best
          else best) b).feature = "x"
        ∨ (l.foldl (fun best fi =>
          let leftData := data.filter fun d => d.feat fi.1 < fi.2
          let rightData := data.filter fun d => fi.2 ≤ d.feat fi.1
          if 0 < leftData.length ∧ 0 < rightData.length then
            let gain := |(leftData.length : ℚ) - (rightData.length : ℚ)| / (data.length : ℚ)
            if best.gain < gain then ⟨fi.1, fi.2, gain⟩ else best
          else best) b).feature = "y") := by
    intro l
    induction l with
    | nil => intro b _ hb; exact hb
    | cons fi l ih =>
      intro b hmem hb
      rw [List.foldl_cons]
      apply ih _ (fun g hg => hmem g (List.mem_cons_of_mem _ hg))
      simp only []
      split
      · split
        · exact hmem fi (List.mem_cons_self _ _)
        · exact hb
      · exact hb
  exact key splitCandidates ⟨"x", 5, 0⟩ (by decide) (Or.inl rfl)

/-- Data set exhibiting the tie in the leaf prediction: two samples of
label 1 and two of label 2 (4 < 5, so the root is a leaf). -/
def c5Data : List DataPoint := [⟨1, 1, some 1⟩, ⟨2, 2, some 1⟩, ⟨3, 3, some 2⟩, ⟨4, 4, some 2⟩]

/-- Modelled from the spec's words (refinement comparison only): the majority
label with ties broken by the FIRST-encountered label in enumeration order —
the scan replaces its candidate only on a strictly greater count. -/
def specMajorityLabel (labels : List ℕ) : ℕ :=
  match labelKeys labels with
  | [] => 0
  | k :: ks => ks.foldl (fun a b => if labels.count a < labels.count b then b else a) k

/-- C5 (counterexample): on two samples of label 1 and two of label 2 the code
predicts label 2, while the claim's tie-break (first-encountered label in
enumeration order) demands label 1. -/
theorem buildDecisionTree_tiebreak_counterexample :
    (buildDecisionTree c5Data 0 3).prediction = some 2
      ∧ specMajorityLabel (c5Data.map fun d => d.label.getD 0) = 1
      ∧ (2 : ℕ) ≠ 1 := by
  refine ⟨?_, by decide, by decide⟩
  rw [buildDecisionTree.eq_def, dif_pos (by decide)]
  decide

/-- C5 (amended): `buildDecisionTree` returns a leaf exactly when the depth
ceiling is reached, fewer than 5 samples remain, or the chosen split yields an
empty partition; and a leaf's prediction is a label of maximal count among its
samples, with ties broken by the LARGEST tied label in enumeration order
(ascending numeric key order), not the first-encountered one. -/
theorem buildDecisionTree_leaf_iff (data : List DataPoint) (depth maxDepth : ℕ)
    (hne : data ≠ []) :
    ((buildDecisionTree data depth maxDepth).feature = "leaf"
        ↔ stopCondition data depth maxDepth)
      ∧ (stopCondition data depth maxDepth →
          ∃ p, (buildDecisionTree data depth maxDepth).prediction = some p
            ∧ p ∈ (data.map fun d => d.label.getD 0)
            ∧ (∀ l ∈ (data.map fun d => d.label.getD 0),
                (data.map fun d => d.label.getD 0).count l
                  ≤ (data.map fun d => d.label.getD 0).count p)
            ∧ (∀ l ∈ (data.map fun d => d.label.getD 0),
                (data.map fun d => d.label.getD 0).count l
                    = (data.map fun d => d.label.getD 0).count p → l ≤ p)) := by
  have hlabne : (data.map fun d => d.label.getD 0) ≠ [] := by
    intro hcontra
    exact hne (List.map_eq_nil_iff.mp hcontra)
  constructor
  · constructor
    · intro hleaf
      by_contra hno
      have hfeat : (buildDecisionTree data depth maxDepth).feature
          = (findBestSplit data).feature := by
        unfold stopCondition at hno
        push_neg at hno
        obtain ⟨h1, h2, h3, h4⟩ := hno
        rw [buildDecisionTree.eq_def, dif_neg (by push_neg; omega)]
        simp only []
        rw [if_neg (by push_neg; exact ⟨h3, h4⟩)]
        rfl
      rcases findBestSplit_feature_mem data with h | h <;>
        rw [hfeat, h] at hleaf <;> exact absurd hleaf (by decide)
    · intro hstop
      rw [buildDecisionTree_eq_leaf data depth maxDepth hstop]
      rfl
  · intro hstop
    rw [buildDecisionTree_eq_leaf data depth maxDepth hstop]
    obtain ⟨hmem, hmax, htie⟩ := majorityLabel_spec _ hlabne
    exact ⟨majorityLabel (data.map fun d => d.label.getD 0),
      leafNode_prediction data depth, hmem, hmax, htie⟩

/-- Witness for the amended C5 at the concrete tie data set. -/
theorem buildDecisionTree_leaf_iff_witness :
    c5Data ≠ []
    ∧ (((buildDecisionTree c5Data 0 3).feature = "leaf" ↔ stopCondition c5Data 0 3)
      ∧ (stopCondition c5Data 0 3 →
          ∃ p, (buildDecisionTree c5Data 0 3).prediction = some p
            ∧ p ∈ (c5Data.map fun d => d.label.getD 0)
            ∧ (∀ l ∈ (c5Data.map fun d => d.label.getD 0),
                (c5Data.map fun d => d.label.getD 0).count l
                  ≤ (c5Data.map fun d => d.label.getD 0).count p)
            ∧ (∀ l ∈ (c5Data.map fun d => d.label.getD 0),
                (c5Data.map fun d => d.label.getD 0).count l
                    = (c5Data.map fun d => d.label.getD 0).count p → l ≤ p))) :=
  ⟨by simp [c5Data], buildDecisionTree_leaf_iff c5Data 0 3 (by simp [c5Data])⟩

/-- Five identical samples: no candidate split is valid, so the default split
`x < 5` sends every point left and the right partition is empty. -/
def c8Data : List DataPoint := List.replicate 5 ⟨3, 3, some 1⟩

/-- C8: whenever the selected split produces an empty left or right partition
(in particular for a dataset with no valid split), `buildDecisionTree` returns
a single leaf whose samples count is the full dataset size and whose
prediction is a majority label, instead of recursing. -/
theorem buildDecisionTree_empty_partition_leaf (data : List DataPoint)
    (depth maxDepth : ℕ) (hd : depth < maxDepth) (hlen : 5 ≤ data.length)
    (hempty : (data.filter fun d =>
        d.feat (findBestSplit data).feature < (findBestSplit data).threshold).length = 0
      ∨ (data.filter fun d =>
        (findBestSplit data).threshold ≤ d.feat (findBestSplit data).feature).length = 0) :
    (buildDecisionTree data depth maxDepth).feature = "leaf"
      ∧ (buildDecisionTree data depth maxDepth).left = none
      ∧ (buildDecisionTree data depth maxDepth).right = none
      ∧ (buildDecisionTree data depth maxDepth).samples = data.length
      ∧ ∃ p, (buildDecisionTree data depth maxDepth).prediction = some p
          ∧ p ∈ (data.map fun d => d.label.getD 0)
          ∧ ∀ l ∈ (data.map fun d => d.label.getD 0),
              (data.map fun d => d.label.getD 0).count l
                ≤ (data.map fun d => d.label.getD 0).count p := by
  have hstop : stopCondition data depth maxDepth := Or.inr (Or.inr hempty)
  rw [buildDecisionTree_eq_leaf data depth maxDepth hstop]
  have hlabne : (data.map fun d => d.label.getD 0) ≠ [] := by
    intro hcontra
    have : data = [] := List.map_eq_nil_iff.mp hcontra
    rw [this] at hlen
    simp at hlen
  obtain ⟨hmem, hmax, _⟩ := majorityLabel_spec _ hlabne
  exact ⟨rfl, rfl, rfl, rfl, majorityLabel _, leafNode_prediction data depth, hmem, hmax⟩

/-- Witness for C8 at five identical samples. -/
theorem buildDecisionTree_empty_partition_leaf_witness :
    (0 : ℕ) < 3 ∧ (5 : ℕ) ≤ c8Data.length
    ∧ ((c8Data.filter fun d =>
        d.feat (findBestSplit c8Data).feature < (findBestSplit c8Data).threshold).length = 0
      ∨ (c8Data.filter fun d =>
        (findBestSplit c8Data).threshold ≤ d.feat (findBestSplit c8Data).feature).length = 0)
    ∧ ((buildDecisionTree c8Data 0 3).feature = "leaf"
      ∧ (buildDecisionTree c8Data 0 3).left = none
      ∧ (buildDecisionTree c8Data 0 3).right = none
      ∧ (buildDecisionTree c8Data 0 3).samples = c8Data.length
      ∧ ∃ p, (buildDecisionTree c8Data 0 3).prediction = some p
          ∧ p ∈ (c8Data.map fun d => d.label.getD 0)
          ∧ ∀ l ∈ (c8Data.map fun d => d.label.getD 0),
              (c8Data.map fun d => d.label.getD 0).count l
                ≤ (c8Data.map fun d => d.label.getD 0).count p) :=
  ⟨by decide, by decide, by decide,
   buildDecisionTree_empty_partition_leaf c8Data 0 3 (by decide) (by decide) (by decide)⟩

/-- Height of an (optional) subtree: a childless leaf has height 0. -/
def heightO : Option DecisionNode → ℕ
  | none => 0
  | some (.mk _ _ _ l r _ _ _) => 1 + max (heightO l) (heightO r)

def DecisionNode.height : DecisionNode → ℕ
  | .mk _ _ _ l r _ _ _ => max (heightO l) (heightO r)

lemma height_mk (i f : String) (th : ℚ) (l r : Option DecisionNode)
    (pr : Option ℕ) (sa de : ℕ) :
    (DecisionNode.mk i f th l r pr sa de).height = max (heightO l) (heightO r) := by
  simp [DecisionNode.height]

lemma heightO_some (t : DecisionNode) : heightO (some t) = 1 + t.height := by
  cases t
  rw [height_mk]
  simp [heightO]

lemma buildDecisionTree_height_aux :
    ∀ (fuel : ℕ) (data : List DataPoint) (depth maxDepth : ℕ),
      maxDepth - depth ≤ fuel →
      (buildDecisionTree data depth maxDepth).height ≤ maxDepth - depth := by
  intro fuel
  induction fuel with
  | zero =>
    intro data depth maxDepth hf
    have hle : maxDepth ≤ depth := by omega
    rw [buildDecisionTree.eq_def, dif_pos (Or.inl hle)]
    simp [leafNode, DecisionNode.height, heightO]
  | succ n ih =>
    intro data depth maxDepth hf
    rw [buildDecisionTree.eq_def]
    split
    · simp [leafNode, DecisionNode.height, heightO]
    · rename_i hno
      push_neg at hno
      obtain ⟨hd, _⟩ := hno
      simp only []
      split
      · simp [leafNode, DecisionNode.height, heightO]
      · have h1 := ih (data.filter fun d =>
            d.feat (findBestSplit data).feature < (findBestSplit data).threshold)
            (depth + 1) maxDepth (by omega)
        have h2 := ih (data.filter fun d =>
            (findBestSplit data).threshold ≤ d.feat (findBestSplit data).feature)
            (depth + 1) maxDepth (by omega)
        rw [height_mk, heightO_some, heightO_some]
        apply Nat.max_le.mpr
        refine ⟨?_, ?_⟩ <;> omega

/-! ## ANN forward pass (src/app/ann-simulation/page.tsx, performForwardPass) -/

structure NetworkNode where
  id : String
  layer : ℕ
  position : ℕ
  activation : ℝ
  bias : ℝ
  input : Option ℝ

structure NetworkConnection where
  «from» : String
  «to» : String
  weight : ℝ
  active : Bool

noncomputable def activationFunctions.sigmoid (x : ℝ) : ℝ := 1 / (1 + Real.exp (-x))

def activationFunctions.relu (x : ℝ) : ℝ := max 0 x

noncomputable def activationFunctions.tanh (x : ℝ) : ℝ := Real.tanh x

noncomputable def activationFunctions.leaky_relu (x : ℝ) : ℝ := if 0 < x then x else 0.01 * x

def activationFunctions.linear (x : ℝ) : ℝ := x

/-- JavaScript `node.input || Math.random()`: `undefined` and `0` are falsy,
so the random fallback is used for both. -/
noncomputable def jsOrInput (o : Option ℝ) (r : ℝ) : ℝ :=
  match o with
  | some v => if v = 0 then r else v
  | none => r

/-- `sum = node.bias` followed by `connections.forEach`: every connection into
the node adds `fromNode.activation * conn.weight`, where `fromNode` is the
first node of the current array with the connection's source id (skipped when
absent). -/
def nodeSum (ns : List NetworkNode) (conns : List NetworkConnection)
    (node : NetworkNode) : ℝ :=
  conns.foldl
    (fun sum c =>
      if c.«to» = node.id then
        match ns.find? (fun n => n.id = c.«from») with
        | some fromNode => sum + fromNode.activation * c.weight
        | none => sum
      else sum)
    node.bias

/-- `performForwardPass`: layer-0 activations are set from `input || random`;
then for each layer `1 ≤ L < architecture.length` in order, each node of that
layer (in array order) has its activation replaced, in place, by the selected
activation function applied to its bias-seeded weighted input sum, reading the
partially updated array. -/
noncomputable def performForwardPass (arch : List ℕ) (f : ℝ → ℝ)
    (conns : List NetworkConnection) (rand : String → ℝ)
    (nodes : List NetworkNode) : List NetworkNode :=
  let ns0 := nodes.map fun n =>
    if n.layer = 0 then { n with activation := jsOrInput n.input (rand n.id) } else n
  (List.range' 1 (arch.length - 1)).foldl
    (fun ns L =>
      (List.range ns.length).foldl
        (fun ms i =>
          match ms.get? i with
          | some node =>
            if node.layer = L then
              ms.set i { node with activation := f (nodeSum ms conns node) }
            else ms
          | none => ms)
        ns)
    ns0

/-- C7: for the `[2,1]` perceptron with stored weights `w1, w2`, bias `b` and
nonzero stored inputs `a1, a2`, a single forward pass leaves the two input
activations at `a1, a2` and sets the output activation to exactly
`f (w1*a1 + w2*a2 + b)` for the selected activation function `f`; and the five
selectable activation functions are exactly the claimed formulas. -/
theorem performForwardPass_perceptron (f : ℝ → ℝ) (w1 w2 b a1 a2 x0 x1 y0 : ℝ)
    (rand : String → ℝ) (h1 : a1 ≠ 0) (h2 : a2 ≠ 0) :
    ((performForwardPass [2, 1] f
        [⟨"0-0", "1-0", w1, false⟩, ⟨"0-1", "1-0", w2, false⟩] rand
        [⟨"0-0", 0, 0, x0, 0, some a1⟩, ⟨"0-1", 0, 1, x1, 0, some a2⟩,
         ⟨"1-0", 1, 0, y0, b, none⟩]).map fun n => n.activation)
        = [a1, a2, f (w1 * a1 + w2 * a2 + b)]
      ∧ activationFunctions.sigmoid = (fun x => 1 / (1 + Real.exp (-x)))
      ∧ activationFunctions.relu = (fun x => max 0 x)
      ∧ activationFunctions.tanh = (fun x => Real.tanh x)
      ∧ activationFunctions.leaky_relu = (fun x => if 0 < x then x else 0.01 * x)
      ∧ activationFunctions.linear = (fun x => x) := by
  refine ⟨?_, rfl, rfl, rfl, rfl, rfl⟩
  simp [performForwardPass, jsOrInput, nodeSum, h1, h2, List.range',
    List.range_succ, List.range_zero]
  ring_nf

/-- Witness for C7: unit weights, bias and inputs under sigmoid. -/
theorem performForwardPass_perceptron_witness :
    ((1 : ℝ) ≠ 0)
    ∧ (((performForwardPass [2, 1] activationFunctions.sigmoid
        [⟨"0-0", "1-0", 1, false⟩, ⟨"0-1", "1-0", 1, false⟩] (fun _ => 0)
        [⟨"0-0", 0, 0, 0, 0, some 1⟩, ⟨"0-1", 0, 1, 0, 0, some 1⟩,
         ⟨"1-0", 1, 0, 0, 1, none⟩]).map fun n => n.activation)
        = [1, 1, activationFunctions.sigmoid (1 * 1 + 1 * 1 + 1)]
      ∧ activationFunctions.sigmoid = (fun x => 1 / (1 + Real.exp (-x)))
      ∧ activationFunctions.relu = (fun x => max 0 x)
      ∧ activationFunctions.tanh = (fun x => Real.tanh x)
      ∧ activationFunctions.leaky_relu = (fun x => if 0 < x then x else 0.01 * x)
      ∧ activationFunctions.linear = (fun x => x)) :=
  ⟨by norm_num,
   performForwardPass_perceptron activationFunctions.sigmoid 1 1 1 1 1 0 0 0
     (fun _ => 0) (by norm_num) (by norm_num)⟩

/-! ## Heuristic digit classifier (src/app/ml-algorithms/page.tsx, recognizeDigit) -/

/-- A 28×28 drawing grid, indexed `grid[y][x]` as row then column; the source
only ever reads indices 0–27. -/
abbrev Grid := ℕ → ℕ → ℚ

/-- `data.flat().reduce((sum, val) => sum + val, 0)`. -/
def totalIntensity (g : Grid) : ℚ :=
  ∑ y ∈ Finset.range 28, ∑ x ∈ Finset.range 28, g y x

/-- Recursion-depth budget for the flood fill.  Every frame of the source's
depth-first recursion that does not return early marks a fresh cell of the
28×28 grid visited, so the call depth is bounded by `28 * 28 + 2`; a budget of
1000 therefore reproduces the source recursion exactly. -/
def floodFuel : ℕ := 1000

/-- The flood fill of `countLoops`: returns early outside the grid, on a
visited cell, or on ink (`grid[y][x] > 0.1`); otherwise marks the cell and
recurses right, left, down, up, threading the visited set. -/
def floodFill (g : Grid) : ℕ → ℤ → ℤ → Finset (ℤ × ℤ) → Finset (ℤ × ℤ)
  | 0, _, _, visited => visited
  | fuel + 1, x, y, visited =>
    if x < 0 ∨ 28 ≤ x ∨ y < 0 ∨ 28 ≤ y ∨ (x, y) ∈ visited
        ∨ (1 : ℚ)/10 < g y.toNat x.toNat then visited
    else
      let v0 := insert (x, y) visited
      let v1 := floodFill g fuel (x + 1) y v0
      let v2 := floodFill g fuel (x - 1) y v1
      let v3 := floodFill g fuel x (y + 1) v2
      floodFill g fuel x (y - 1) v3

/-- `countLoops`: flood-fill the background from `(0, 0)`, then scan the grid
in row order, counting (and filling) every still-unvisited empty region. -/
def countLoops (g : Grid) : ℕ :=
  ((List.range 28).foldl
    (fun (st : ℕ × Finset (ℤ × ℤ)) (y : ℕ) =>
      (List.range 28).foldl
        (fun (st : ℕ × Finset (ℤ × ℤ)) (x : ℕ) =>
          if ((x : ℤ), (y : ℤ)) ∉ st.2 ∧ g y x < 1/10 then
            (st.1 + 1, floodFill g floodFuel (x : ℤ) (y : ℤ) st.2)
          else st)
        st)
    (0, floodFill g floodFuel 0 0 ∅)).1

/-- Vertical symmetry score of `getSymmetry`:
`(Σ_{y<28, x<14} 1 - |grid[y][x] - grid[y][27-x]|) / (28*14)`. -/
def vSymmetry (g : Grid) : ℚ :=
  (∑ y ∈ Finset.range 28, ∑ x ∈ Finset.range 14, (1 - |g y x - g y (27 - x)|))
    / (28 * 14)

/-- Horizontal symmetry score of `getSymmetry`:
`(Σ_{y<28, x<14} 1 - |grid[x][y] - grid[27-x][y]|) / (28*14)`. -/
def hSymmetry (g : Grid) : ℚ :=
  (∑ y ∈ Finset.range 28, ∑ x ∈ Finset.range 14, (1 - |g x y - g (27 - x) y|))
    / (28 * 14)

/-- `getAspectRatio`: bounding box of ink cells (`> 0.1`) folded in row order
from `(minX, maxX, minY, maxY) = (28, 0, 28, 0)`, then
`height / (width || 1)` on the signed widths. -/
def aspect (g : Grid) : ℚ :=
  let st := (List.range 28).foldl
    (fun (st : ℤ × ℤ × ℤ × ℤ) y =>
      (List.range 28).foldl
        (fun (st : ℤ × ℤ × ℤ × ℤ) x =>
          if 1/10 < g y x then
            (min st.1 x, max st.2.1 x, min st.2.2.1 y, max st.2.2.2 y)
          else st)
        st)
    (28, 0, 28, 0)
  let width : ℤ := st.2.1 - st.1 + 1
  let height : ℤ := st.2.2.2 - st.2.2.1 + 1
  (height : ℚ) / (if width = 0 then 1 else (width : ℚ))

/-- The ten heuristic scores, index by digit; each entry is the sum of the
source's `+=` contributions to `scores[digit]`. -/
def digitScores (g : Grid) : List ℚ :=
  let loops := countLoops g
  let sv := vSymmetry g
  let sh := hSymmetry g
  let ar := aspect g
  [ (if loops = 1 ∧ 9/10 < sv ∧ 8/10 < sh then 8 else 0) + sv * 3 + sh * 3,
    (if loops = 0 ∧ 2 < ar ∧ 9/10 < sv then 10 else -2) + sv * 4,
    (if loops = 0 ∧ sv < 8/10 ∧ sh < 8/10 then 5 else 0),
    (if loops = 0 ∧ 8/10 < sh then 6 else 0),
    (if loops = 0 then 4 else 0),
    (if loops = 0 then 3 else 0),
    (if loops = 1 ∧ sh < 3/4 then 7 else 0),
    (if loops = 0 ∧ ar < 3/2 then 5 else 0),
    (if loops = 2 then 10 else -5) + sv * 2 + sh * 2,
    (if loops = 1 ∧ sh < 3/4 then 7 else 0) ]

/-- `Math.max(...)` of a non-empty argument list (the empty case never
arises: the scores array has 10 entries). -/
def jsMax : List ℚ → ℚ
  | [] => 0
  | a :: rest => rest.foldl max a

/-- The softmax of `recognizeDigit`:
`exps = scores.map(s => exp(s - maxScore))`, `sumExps = Σ exps`,
`probabilities = exps.map(e => e / sumExps)`. -/
noncomputable def softmax (scores : List ℚ) : List ℝ :=
  let maxScore := jsMax scores
  let exps := scores.map fun s : ℚ => Real.exp ((s : ℝ) - (maxScore : ℝ))
  let sumExps := exps.sum
  exps.map fun e => e / sumExps

/-- `recognizeDigit`: a near-empty canvas (total intensity `< 5`)
short-circuits to the uniform distribution `0.1` over the 10 digits; otherwise
the heuristic scores are pushed through the softmax. -/
noncomputable def recognizeDigit (g : Grid) : List ℝ :=
  if totalIntensity g < 5 then List.replicate 10 (1/10)
  else softmax (digitScores g)

lemma list_sum_div (l : List ℝ) (c : ℝ) :
    (l.map fun e => e / c).sum = l.sum / c := by
  induction l with
  | nil => simp
  | cons a t ih => simp [ih, add_div]

lemma softmax_spec (l : List ℚ) (hl : l ≠ []) :
    (softmax l).length = l.length
      ∧ (∀ p ∈ softmax l, 0 ≤ p ∧ p ≤ 1)
      ∧ (softmax l).sum = 1 := by
  have hepos : ∀ e ∈ l.map (fun s : ℚ => Real.exp ((s : ℝ) - (jsMax l : ℝ))),
      0 < e := by
    intro e he
    obtain ⟨s, _, rfl⟩ := List.mem_map.mp he
    exact Real.exp_pos _
  have hne : l.map (fun s : ℚ => Real.exp ((s : ℝ) - (jsMax l : ℝ))) ≠ [] :=
    fun hcon => hl (List.map_eq_nil_iff.mp hcon)
  have hsumpos :
      0 < (l.map (fun s : ℚ => Real.exp ((s : ℝ) - (jsMax l : ℝ)))).sum :=
    List.sum_pos _ hepos hne
  refine ⟨?_, ?_, ?_⟩
  · simp [softmax]
  · intro p hp
    simp only [softmax] at hp
    rw [List.mem_map] at hp
    obtain ⟨e, hemem, rfl⟩ := hp
    have he : 0 < e := hepos e hemem
    constructor
    · exact div_nonneg he.le hsumpos.le
    · rw [div_le_one hsumpos]
      exact List.single_le_sum (fun x hx => (hepos x hx).le) e hemem
  · simp only [softmax]
    rw [list_sum_div, div_self (ne_of_gt hsumpos)]

lemma digitScores_ne_nil (g : Grid) : digitScores g ≠ [] := by
  simp [digitScores]

lemma digitScores_length (g : Grid) : (digitScores g).length = 10 := by
  simp [digitScores]

/-- C2: for every input grid, `recognizeDigit` returns exactly 10
probabilities, each in `[0,1]`, summing to 1; away from the near-empty
short-circuit they are computed by the max-subtracted softmax of the heuristic
scores. -/
theorem recognizeDigit_distribution (g : Grid) :
    (recognizeDigit g).length = 10
      ∧ (∀ p ∈ recognizeDigit g, 0 ≤ p ∧ p ≤ 1)
      ∧ (recognizeDigit g).sum = 1
      ∧ recognizeDigit g
          = if totalIntensity g < 5 then List.replicate 10 ((1 : ℝ)/10)
            else (digitScores g).map fun s : ℚ =>
              Real.exp ((s : ℝ) - (jsMax (digitScores g) : ℝ))
                / ((digitScores g).map fun t : ℚ =>
                    Real.exp ((t : ℝ) - (jsMax (digitScores g) : ℝ))).sum := by
  by_cases hti : totalIntensity g < 5
  · refine ⟨?_, ?_, ?_, ?_⟩
    · simp [recognizeDigit, hti]
    · intro p hp
      simp only [recognizeDigit, if_pos hti] at hp
      rw [List.eq_of_mem_replicate hp]
      norm_num
    · simp only [recognizeDigit, if_pos hti]
      rw [List.sum_replicate]
      norm_num
    · simp [recognizeDigit, hti]
  · obtain ⟨hlen, hmem, hsum⟩ := softmax_spec (digitScores g) (digitScores_ne_nil g)
    refine ⟨?_, ?_, ?_, ?_⟩
    · simp only [recognizeDigit, if_neg hti]
      rw [hlen, digitScores_length]
    · intro p hp
      simp only [recognizeDigit, if_neg hti] at hp
      exact hmem p hp
    · simp only [recognizeDigit, if_neg hti]
      exact hsum
    · simp only [recognizeDigit, if_neg hti, softmax]
      rw [List.map_map]
      rfl

/-- C9: a grid whose total intensity is below the fixed floor 5 short-circuits
to the uniform low-confidence distribution, probability 0.1 for each of the 10
digits. -/
theorem recognizeDigit_near_empty_uniform (g : Grid)
    (h : totalIntensity g < 5) :
    recognizeDigit g = List.replicate 10 ((1 : ℝ)/10) := by
  simp [recognizeDigit, h]

/-- The all-zero canvas. -/
def zeroGrid : Grid := fun _ _ => 0

/-- Witness for C9 at the empty canvas. -/
theorem recognizeDigit_near_empty_uniform_witness :
    totalIntensity zeroGrid < 5
    ∧ recognizeDigit zeroGrid = List.replicate 10 ((1 : ℝ)/10) :=
  ⟨by simp [totalIntensity, zeroGrid], recognizeDigit_near_empty_uniform zeroGrid
    (by simp [totalIntensity, zeroGrid])⟩

/-- C10: `buildDecisionTree` is total (it is a well-founded Lean definition on
the measure `maxDepth - depth`, each recursive call raising `depth` by exactly
1), and the resulting tree's height is bounded by `maxDepth - depth` — in
particular by `maxDepth` for a build starting at depth 0. -/
theorem buildDecisionTree_terminates_height_bound (data : List DataPoint)
    (depth maxDepth : ℕ) :
    (buildDecisionTree data depth maxDepth).height ≤ maxDepth - depth
      ∧ (buildDecisionTree data 0 maxDepth).height ≤ maxDepth := by
  constructor
  · exact buildDecisionTree_height_aux (maxDepth - depth) data depth maxDepth le_rfl
  · have := buildDecisionTree_height_aux maxDepth data 0 maxDepth (by omega)
    omega

end NeuralSim
